import Mathlib

/-!
Verification development for the laptop-advisor repository.

The Lean definitions below are a shallow embedding of the Python source:

* `src/advisor.py` — class `LaptopAdvisor` with methods `_fuzzy_match_brand`,
  `_extract_filters`, `_apply_filters`, `_get_full_recommendation`,
  `_compare_products`, `process_command`.

Python dictionaries holding the five recognized filter keys become a
structure of `Option` fields; Python floats (prices, fuzzy scores) are
modelled as exact rationals; the external LLM service and the external
fuzzy-scoring routine (rapidfuzz WRatio) are black boxes, modelled as an
explicit response outcome value and an abstract score function
respectively.  A Python exception escaping a method is modelled as
`Except.error`.
-/

namespace Advisor

/-- Lowercasing of one character, mirroring Python `str.lower` on the
alphabets the program actually handles: ASCII letters and the Russian
Cyrillic block used by the source strings. -/
def lowerRu (c : Char) : Char :=
  if 'A' ≤ c ∧ c ≤ 'Z' then Char.ofNat (c.toNat + 32)
  else if 'А' ≤ c ∧ c ≤ 'Я' then Char.ofNat (c.toNat + 32)
  else if c = 'Ё' then 'ё'
  else c

/-- Python `str.lower`, character by character. -/
def pyLower (s : String) : String :=
  String.mk (s.data.map lowerRu)

/-- Python regex class `\s` on the inputs involved: ASCII whitespace. -/
def isPySpace (c : Char) : Bool :=
  c = ' ' ∨ c = '\t' ∨ c = '\n' ∨ c = '\r' ∨ c = '\x0b' ∨ c = '\x0c'

/-- Does `hay` start with `needle`? (List-of-characters version of
Python string operations; written directly to keep everything easily
computable by the kernel.) -/
def startsWithSeq : List Char → List Char → Bool
  | [], _ => true
  | _ :: _, [] => false
  | a :: as, b :: bs => a == b && startsWithSeq as bs

/-- Python `needle in hay` for strings: substring containment. -/
def containsSeq (needle : List Char) : List Char → Bool
  | [] => startsWithSeq needle []
  | c :: rest => startsWithSeq needle (c :: rest) || containsSeq needle rest

/-- Decimal value of a run of digit characters. -/
def digitsToNat (ds : List Char) : Nat :=
  ds.foldl (fun n c => n * 10 + (c.toNat - 48)) 0

/-- One catalog record, as produced by `_load_products`
(`price` coerced to float — modelled as ℚ — and `ram_gb` to int). -/
structure Product where
  id : String
  brand : String
  model : String
  ram_gb : Int
  cpu : String
  price : Rat
  in_stock : Bool
deriving DecidableEq

/-- The five recognized filter keys of `current_filters`; a Python dict
with optional presence of each key becomes one `Option` per key. -/
structure Filters where
  ram : Option Int := none
  max_price : Option Rat := none
  cpu : Option String := none
  brand : Option String := none
  in_stock : Option Bool := none
deriving DecidableEq

/-- Python dict update for a single key: the new binding wins when present. -/
def oupd {α : Type} (old new : Option α) : Option α :=
  match new with
  | some v => some v
  | none => old

/-- Python `self.current_filters.update(filters)` restricted to the five
recognized keys: every key present in `new` overwrites `old`. -/
def Filters.update (old new : Filters) : Filters :=
  { ram := oupd old.ram new.ram
    max_price := oupd old.max_price new.max_price
    cpu := oupd old.cpu new.cpu
    brand := oupd old.brand new.brand
    in_stock := oupd old.in_stock new.in_stock }

/-- `self.preferences` of `LaptopAdvisor.__init__`. -/
structure Preferences where
  brand : Option String := none
  min_ram : Option Int := none
  max_price : Option Rat := none
  cpu : Option String := none
  in_stock : Option Bool := none
deriving DecidableEq

/-- The session state carried by a `LaptopAdvisor` instance. -/
structure AdvisorState where
  products : List Product
  last_results : List Product := []
  current_filters : Filters := {}
  preferences : Preferences := {}
  available_brands : List String := []
deriving DecidableEq

/-- `rapidfuzz process.extractOne(query, choices, scorer=score)`: the
highest-scoring choice (first one on ties), `none` on an empty choice
list.  The scorer itself is external library code, kept abstract. -/
def extractOne (score : String → String → Rat) (query : String)
    (choices : List String) : Option (String × Rat) :=
  choices.foldl
    (fun acc b =>
      match acc with
      | none => some (b, score query b)
      | some pr => if pr.2 < score query b then some (b, score query b) else acc)
    none

/-- `LaptopAdvisor._fuzzy_match_brand(query, threshold=75)`: empty query
gives none; an exact case-insensitive hit short-circuits; otherwise the
best fuzzy score is accepted when at least 75. -/
def fuzzy_match_brand (score : String → String → Rat) (brands : List String)
    (query : String) : Option String :=
  if query = "" then none
  else
    match brands.find? (fun b => pyLower b == pyLower query) with
    | some b => some b
    | none =>
        match extractOne score query brands with
        | some pr => if (75 : Rat) ≤ pr.2 then some pr.1 else none
        | none => none

/-- Alternative 1 of the RAM regex `(\d+)\s*gb|рам\s*(\d+)` at the head
of the (already lowercased) text: a digit run, optional whitespace, then
the letters g b. -/
def tryGbAlt (l : List Char) : Option Int :=
  let ds := l.takeWhile Char.isDigit
  if ds.isEmpty then none
  else
    match (l.dropWhile Char.isDigit).dropWhile isPySpace with
    | 'g' :: 'b' :: _ => some ((digitsToNat ds : Nat) : Int)
    | _ => none

/-- Alternative 2 of the RAM regex at the head of the text: the letters
р а м, optional whitespace, then a digit run. -/
def tryRamAlt (l : List Char) : Option Int :=
  match l with
  | 'р' :: 'а' :: 'м' :: rest =>
      let ds := (rest.dropWhile isPySpace).takeWhile Char.isDigit
      if ds.isEmpty then none else some ((digitsToNat ds : Nat) : Int)
  | _ => none

/-- `re.search` of the RAM pattern: leftmost match wins, alternative 1
preferred at equal positions.  (Backtracking inside `\d+` and `\s*` can
never produce a match the maximal-munch reading misses, because a
shorter digit run is followed by a digit and a shorter space run by a
space.) -/
def ramSearch : List Char → Option Int
  | [] => none
  | c :: rest =>
      match tryGbAlt (c :: rest) with
      | some n => some n
      | none =>
          match tryRamAlt (c :: rest) with
          | some n => some n
          | none => ramSearch rest

/-- The local regex pass of `_extract_filters`: the phrase `в наличии`
in the lowercased input sets `in_stock = true`, and a RAM pattern match
sets `ram`. -/
def localExtract (input : String) : Filters :=
  let low := pyLower input
  let f1 : Filters :=
    if containsSeq "в наличии".data low.data then { in_stock := some true } else {}
  match ramSearch low.data with
  | some n => { f1 with ram := some n }
  | none => f1

/-- Outcome of the delegated NLU call in `_extract_filters`.  `ok`
carries the parsed JSON object (restricted to the recognized keys);
`noChoices` is a successful call whose `choices` list is empty or whose
response is falsy; `err` is any raised exception (network error,
service error, or `json.loads` failing on a malformed reply). -/
inductive NLUResult where
  | ok (g : Filters)
  | noChoices
  | err

/-- Brand post-processing of `_extract_filters`: when a `brand` key is
present, it is replaced by its fuzzy resolution, or dropped entirely
when resolution fails. -/
def resolveBrand (score : String → String → Rat) (brands : List String)
    (f : Filters) : Filters :=
  match f.brand with
  | some b =>
      match fuzzy_match_brand score brands b with
      | some mb => { f with brand := some mb }
      | none => { f with brand := none }
  | none => f

/-- `LaptopAdvisor._extract_filters`: local regex pass, then the
delegated keys merged in only where the local pass set nothing
(`if key not in filters`), then brand resolution.  On `noChoices` or
`err` the local filters are returned unchanged. -/
def extract_filters (score : String → String → Rat) (brands : List String)
    (input : String) (resp : NLUResult) : Filters :=
  match resp with
  | NLUResult.ok g => resolveBrand score brands (Filters.update g (localExtract input))
  | NLUResult.noChoices => localExtract input
  | NLUResult.err => localExtract input

/-- Stage 1 of `_apply_filters`: the standing brand preference, guarded
by Python truthiness (None and the empty string both skip it), exact
case-insensitive equality. -/
def prefBrandStage (prefBrand : Option String) (l : List Product) : List Product :=
  match prefBrand with
  | some b => if b = "" then l else l.filter (fun p => pyLower p.brand == pyLower b)
  | none => l

/-- Stage 2 of `_apply_filters`: keep products with `ram_gb >= ram`. -/
def ramStage (o : Option Int) (l : List Product) : List Product :=
  match o with
  | some r => l.filter (fun p => decide (r ≤ p.ram_gb))
  | none => l

/-- Stage 3 of `_apply_filters`: keep products with `price <= max_price`. -/
def priceStage (o : Option Rat) (l : List Product) : List Product :=
  match o with
  | some m => l.filter (fun p => decide (p.price ≤ m))
  | none => l

/-- Stage 4 of `_apply_filters`: keep products whose CPU string contains
the filter value as a case-insensitive substring. -/
def cpuStage (o : Option String) (l : List Product) : List Product :=
  match o with
  | some c => l.filter (fun p => containsSeq (pyLower c).data (pyLower p.cpu).data)
  | none => l

/-- Stage 5 of `_apply_filters`: the `brand` current filter, re-resolved
through the fuzzy matcher at apply time; when resolution fails the
stage filters nothing. -/
def brandStage (score : String → String → Rat) (brands : List String)
    (o : Option String) (l : List Product) : List Product :=
  match o with
  | some b =>
      match fuzzy_match_brand score brands b with
      | some mb => l.filter (fun p => pyLower p.brand == pyLower mb)
      | none => l
  | none => l

/-- Stage 6 of `_apply_filters`: exact boolean equality with the
`in_stock` filter. -/
def stockStage (o : Option Bool) (l : List Product) : List Product :=
  match o with
  | some s => l.filter (fun p => p.in_stock == s)
  | none => l

/-- The six sequential narrowing stages of `_apply_filters`, evaluated
against the full catalog. -/
def runFilters (score : String → String → Rat) (brands : List String)
    (prefBrand : Option String) (cf : Filters) (prods : List Product) : List Product :=
  stockStage cf.in_stock
    (brandStage score brands cf.brand
      (cpuStage cf.cpu
        (priceStage cf.max_price
          (ramStage cf.ram
            (prefBrandStage prefBrand prods)))))

/-- `LaptopAdvisor._apply_filters`: merge the new filters into
`current_filters` (update-in-place), then run all active stages over
`self.products`; returns the mutated state and the filtered list. -/
def apply_filters (score : String → String → Rat) (st : AdvisorState)
    (newF : Filters) : AdvisorState × List Product :=
  ({ st with current_filters := Filters.update st.current_filters newF },
   runFilters score st.available_brands st.preferences.brand
     (Filters.update st.current_filters newF) st.products)

/-- The first currency fix of the reply post-processing:
`recommendation.replace("€", "$")`, character by character. -/
def euroCharToDollar (c : Char) : Char :=
  if c = '€' then '$' else c

/-- Consume the word `евро` case-insensitively at the head of the text
(the tail of the regex `(\d+)\s*евро` under `re.IGNORECASE`). -/
def stripEuroWord (l : List Char) : Option (List Char) :=
  if (l.take 4).map lowerRu = ['е', 'в', 'р', 'о'] then some (l.drop 4) else none

/-- Worker for the case-insensitive substitution of the regex
digits-whitespace-евро by a dollar sign followed by the digits group.
The scan advances one character at a time except over a maximal digit
run that failed to match, which no later position inside the run could
turn into a match (a match must start on a digit, and `\d+` is forced to
the maximal run because the character after a shorter run is a digit).
Fuel is the length of the list, enough for the per-step consumption of
at least one character. -/
def euroSubAux : Nat → List Char → List Char
  | 0, l => l
  | _ + 1, [] => []
  | fuel + 1, c :: rest =>
      if c.isDigit then
        match stripEuroWord (((c :: rest).dropWhile Char.isDigit).dropWhile isPySpace) with
        | some r3 => '$' :: (c :: rest).takeWhile Char.isDigit ++ euroSubAux fuel r3
        | none => (c :: rest).takeWhile Char.isDigit ++ euroSubAux fuel ((c :: rest).dropWhile Char.isDigit)
      else c :: euroSubAux fuel rest

/-- The euro-to-dollar substitution pass on a character list. -/
def euroSub (l : List Char) : List Char :=
  euroSubAux l.length l

/-- The reply post-processing shared by `_get_full_recommendation` and
`_compare_products`: replace every euro sign by a dollar sign, then
rewrite every `<digits> <whitespace>* евро` mention to `$<digits>`. -/
def normalizeReply (s : String) : String :=
  String.mk (euroSub (s.data.map euroCharToDollar))

/-- The number of cents of `q`, rounded half to even as Python
fixed-point formatting does; computed directly on the numerator and
denominator with integer operations.  With `t = 100 * num` and
`d = den > 0`, the floor of `t / d` plus the half-even tie break on the
remainder. -/
def centsHalfEven (q : Rat) : Int :=
  let t : Int := 100 * q.num
  let d : Int := (q.den : Int)
  let f : Int := Int.fdiv t d
  let r : Int := t - f * d
  if 2 * r < d then f
  else if d < 2 * r then f + 1
  else if f % 2 = 0 then f else f + 1

/-- Python fixed-point formatting with two decimals, on the exact
rational model of the price. -/
def fmt2 (q : Rat) : String :=
  let cents := centsHalfEven q
  let sign := if cents < 0 then "-" else ""
  let n := cents.natAbs
  let frac := n % 100
  sign ++ toString (n / 100) ++ "." ++
    (if frac < 10 then "0" ++ toString frac else toString frac)

/-- Outcome of a delegated generation call (`chat.completions.create`):
`ok` is a response with at least one choice, carrying its text;
`noChoices` is a falsy response or an empty `choices` list; `err` is a
raised exception. -/
inductive GenResult where
  | ok (text : String)
  | noChoices
  | err

/-- One line of the recommendation fallback list: a dash, brand, model,
and the price in parentheses with a dollar prefix and two decimals. -/
def recFallbackLine (p : Product) : String :=
  "- " ++ p.brand ++ " " ++ p.model ++ " ($" ++ fmt2 p.price ++ ")"

/-- The deterministic fallback message of `_get_full_recommendation`:
an error marker line plus up to 3 products. -/
def recFallback (products : List Product) : String :=
  String.intercalate "\n"
    ("❌ Не удалось получить рекомендацию. Доступные варианты:"
      :: (products.take 3).map recFallbackLine)

/-- `LaptopAdvisor._get_full_recommendation`.  On an empty product list
a fixed message is returned before any call.  On a response with
choices the normalized reply text is returned.  On a raised exception
the `except` block builds `fallback` and the final
`return "\n".join(fallback)` returns it.  On a choiceless response,
control reaches that same final statement with the local variable
`fallback` never assigned, so Python raises `NameError` out of the
method; this is modelled as `Except.error`. -/
def get_full_recommendation (products : List Product) (resp : GenResult) :
    Except String String :=
  if products.isEmpty then
    Except.ok "❌ Нет ноутбуков для рекомендации"
  else
    match resp with
    | GenResult.ok text => Except.ok (normalizeReply text)
    | GenResult.noChoices => Except.error "NameError: fallback is not defined"
    | GenResult.err => Except.ok (recFallback products)

/-- Loop body of the position-selection loop in `_compare_products`:
append the item at a valid 1-based position, skip the rest silently. -/
def selStep (lr : List Product) (acc : List Product) (idx : Int) : List Product :=
  if 1 ≤ idx ∧ idx ≤ (lr.length : Int) then acc ++ (lr.get? (idx - 1).toNat).toList
  else acc

/-- The `for idx in indices` loop of `_compare_products`, building
`selected` in order. -/
def selectPositions (lr : List Product) (indices : List Int) : List Product :=
  indices.foldl (selStep lr) []

/-- Modelled from the spec words for the selection result: exactly the
items at the in-range positions, in the order the positions were
given.  Used to compare the loop above against its specification. -/
def selectedSpec (lr : List Product) (indices : List Int) : List Product :=
  (indices.filter (fun idx => decide (1 ≤ idx ∧ idx ≤ (lr.length : Int)))).filterMap
    (fun idx => lr.get? (idx - 1).toNat)

/-- Sort key of the local best pick, first component: 0 for an
in-stock item, 1 otherwise. -/
def stockRank (p : Product) : Nat :=
  if p.in_stock then 0 else 1

/-- Sort key of the local best pick, second component: price divided by
RAM size (exact rational model of the float division). -/
def pricePerGb (p : Product) : Rat :=
  p.price / (p.ram_gb : Rat)

/-- Strict comparison of the Python tuples
`(0 if in_stock else 1, price / ram_gb)`. -/
def keyLtB (a b : Product) : Bool :=
  decide (stockRank a < stockRank b) ||
    (decide (stockRank a = stockRank b) && decide (pricePerGb a < pricePerGb b))

/-- Non-strict lexicographic order on the same tuples, the property
language for minimality statements. -/
def keyLe (a b : Product) : Prop :=
  stockRank a < stockRank b ∨ (stockRank a = stockRank b ∧ pricePerGb a ≤ pricePerGb b)

/-- The scan performed by Python `min(selected, key=...)`: keep the
current best, replace it only on a strictly smaller key. -/
def minLoop : Product → List Product → Product
  | best, [] => best
  | best, x :: rest => minLoop (if keyLtB x best then x else best) rest

/-- The Python min of the selection under the key
(stockRank, pricePerGb); `none` on an empty list (where Python
would raise `ValueError`, unreachable at the call site). -/
def bestPick : List Product → Option Product
  | [] => none
  | p :: rest => some (minLoop p rest)

/-- One item block of the fallback comparison text. -/
def itemBlock (i : Nat) (p : Product) : String :=
  "\n" ++ toString i ++ ". " ++ p.brand ++ " " ++ p.model ++
    "\n   CPU: " ++ p.cpu ++ ", RAM: " ++ toString p.ram_gb ++ "GB" ++
    "\n   Цена: $" ++ fmt2 p.price ++
    "\n   " ++ (if p.in_stock then "✅ В наличии" else "❌ Нет в наличии")

/-- The deterministic fallback comparison of `_compare_products`: the
per-item blocks plus the locally computed best pick. -/
def fallbackComparison (selected : List Product) : String :=
  let base := "📊 Сравнение:\n" ++
    String.join (selected.enum.map (fun ip => itemBlock (ip.1 + 1) ip.2))
  match bestPick selected with
  | some best =>
      base ++ "\n\n🏆 Рекомендация: " ++ best.brand ++ " " ++ best.model ++
        "\n💡 Почему: Лучшее соотношение цены и характеристик среди выбранных."
  | none => base

/-- The message returned when `last_results` is empty. -/
def noResultsMsg : String :=
  "❌ Нет результатов для сравнения. Сначала выполните поиск."

/-- The message returned when every supplied position is out of range,
naming the valid range 1 to N. -/
def invalidPositionsMsg (n : Nat) : String :=
  "❌ Неверные номера моделей. Доступны номера от 1 до " ++ toString n ++ "."

/-- `LaptopAdvisor._compare_products`.  Empty `last_results` and empty
selections are handled before the delegated call; on a response with
choices the normalized reply is returned; on a raised exception or a
choiceless response control reaches the fallback comparison built after
the `try` block. -/
def compare_products (lastResults : List Product) (indices : List Int)
    (resp : GenResult) : String :=
  if lastResults.isEmpty then noResultsMsg
  else
    let selected := selectPositions lastResults indices
    if selected.isEmpty then invalidPositionsMsg lastResults.length
    else
      match resp with
      | GenResult.ok text => normalizeReply text
      | GenResult.noChoices => fallbackComparison selected
      | GenResult.err => fallbackComparison selected

/-! Helper lemmas about the embedded operations. -/

theorem oupd_assoc {α : Type} (a b c : Option α) :
    oupd (oupd a b) c = oupd a (oupd b c) := by
  cases c <;> cases b <;> rfl

theorem Filters.update_assoc (a b c : Filters) :
    Filters.update (Filters.update a b) c = Filters.update a (Filters.update b c) := by
  simp only [Filters.update, oupd_assoc]

theorem mem_of_prefBrandStage {o : Option String} {l : List Product} {p : Product}
    (h : p ∈ prefBrandStage o l) : p ∈ l := by
  cases o with
  | none => exact h
  | some b =>
      have h2 : p ∈ (if b = "" then l else l.filter (fun q : Product => pyLower q.brand == pyLower b)) := h
      by_cases hb : b = ""
      · rw [if_pos hb] at h2; exact h2
      · rw [if_neg hb] at h2; exact (List.mem_filter.mp h2).1

theorem mem_of_ramStage {o : Option Int} {l : List Product} {p : Product}
    (h : p ∈ ramStage o l) : p ∈ l := by
  cases o with
  | none => exact h
  | some r => exact (List.mem_filter.mp h).1

theorem mem_of_priceStage {o : Option Rat} {l : List Product} {p : Product}
    (h : p ∈ priceStage o l) : p ∈ l := by
  cases o with
  | none => exact h
  | some m => exact (List.mem_filter.mp h).1

theorem mem_of_cpuStage {o : Option String} {l : List Product} {p : Product}
    (h : p ∈ cpuStage o l) : p ∈ l := by
  cases o with
  | none => exact h
  | some c => exact (List.mem_filter.mp h).1

theorem mem_of_brandStage {score : String → String → Rat} {brands : List String}
    {o : Option String} {l : List Product} {p : Product}
    (h : p ∈ brandStage score brands o l) : p ∈ l := by
  cases o with
  | none => exact h
  | some b =>
      have h2 : p ∈ (match fuzzy_match_brand score brands b with
          | some mb => l.filter (fun q : Product => pyLower q.brand == pyLower mb)
          | none => l) := h
      cases hm : fuzzy_match_brand score brands b with
      | some mb => rw [hm] at h2; exact (List.mem_filter.mp h2).1
      | none => rw [hm] at h2; exact h2

theorem mem_of_stockStage {o : Option Bool} {l : List Product} {p : Product}
    (h : p ∈ stockStage o l) : p ∈ l := by
  cases o with
  | none => exact h
  | some s => exact (List.mem_filter.mp h).1

theorem ramStage_prop {r : Int} {l : List Product} {p : Product}
    (h : p ∈ ramStage (some r) l) : r ≤ p.ram_gb :=
  of_decide_eq_true (List.mem_filter.mp h).2

theorem priceStage_prop {m : Rat} {l : List Product} {p : Product}
    (h : p ∈ priceStage (some m) l) : p.price ≤ m :=
  of_decide_eq_true (List.mem_filter.mp h).2

theorem stockStage_prop {s : Bool} {l : List Product} {p : Product}
    (h : p ∈ stockStage (some s) l) : p.in_stock = s :=
  eq_of_beq (List.mem_filter.mp h).2

theorem prefBrandStage_mono (o : Option String) {l1 l2 : List Product}
    (h : List.Sublist l1 l2) : List.Sublist (prefBrandStage o l1) (prefBrandStage o l2) := by
  cases o with
  | none => exact h
  | some b =>
      by_cases hb : b = "" <;> simp only [prefBrandStage, hb, if_pos, if_neg, ite_true, ite_false]
      · exact h
      · exact h.filter _

theorem ramStage_mono (o : Option Int) {l1 l2 : List Product}
    (h : List.Sublist l1 l2) : List.Sublist (ramStage o l1) (ramStage o l2) := by
  cases o with
  | none => exact h
  | some r => exact h.filter _

theorem priceStage_mono (o : Option Rat) {l1 l2 : List Product}
    (h : List.Sublist l1 l2) : List.Sublist (priceStage o l1) (priceStage o l2) := by
  cases o with
  | none => exact h
  | some m => exact h.filter _

theorem cpuStage_mono (o : Option String) {l1 l2 : List Product}
    (h : List.Sublist l1 l2) : List.Sublist (cpuStage o l1) (cpuStage o l2) := by
  cases o with
  | none => exact h
  | some c => exact h.filter _

theorem brandStage_mono (score : String → String → Rat) (brands : List String)
    (o : Option String) {l1 l2 : List Product}
    (h : List.Sublist l1 l2) : List.Sublist (brandStage score brands o l1) (brandStage score brands o l2) := by
  cases o with
  | none => exact h
  | some b =>
      show List.Sublist (match fuzzy_match_brand score brands b with
          | some mb => l1.filter (fun q => pyLower q.brand == pyLower mb)
          | none => l1)
        (match fuzzy_match_brand score brands b with
          | some mb => l2.filter (fun q => pyLower q.brand == pyLower mb)
          | none => l2)
      cases hm : fuzzy_match_brand score brands b with
      | some mb => exact h.filter _
      | none => exact h

theorem stockStage_mono (o : Option Bool) {l1 l2 : List Product}
    (h : List.Sublist l1 l2) : List.Sublist (stockStage o l1) (stockStage o l2) := by
  cases o with
  | none => exact h
  | some s => exact h.filter _

theorem stripEuroWord_eq_some {l r : List Char} (h : stripEuroWord l = some r) :
    r = l.drop 4 := by
  unfold stripEuroWord at h
  split at h
  · exact (Option.some.inj h).symm
  · cases h

theorem mem_euroSubAux {c : Char} :
    ∀ (fuel : Nat) (l : List Char), c ∈ euroSubAux fuel l → c = '$' ∨ c ∈ l := by
  intro fuel
  induction fuel with
  | zero => intro l h; exact Or.inr h
  | succ n ih =>
      intro l h
      match l with
      | [] => exact absurd h (by simp [euroSubAux])
      | x :: rest =>
          rw [euroSubAux] at h
          by_cases hd : x.isDigit
          · rw [if_pos hd] at h
            cases hstrip : stripEuroWord (((x :: rest).dropWhile Char.isDigit).dropWhile isPySpace) with
            | some r3 =>
                rw [hstrip] at h
                rcases List.mem_cons.mp h with h1 | h2
                · exact Or.inl h1
                rcases List.mem_append.mp h2 with h3 | h4
                · exact Or.inr ((List.takeWhile_sublist _).subset h3)
                · rcases ih r3 h4 with h5 | h6
                  · exact Or.inl h5
                  · refine Or.inr ?_
                    have hr3 : r3 = (((x :: rest).dropWhile Char.isDigit).dropWhile isPySpace).drop 4 :=
                      stripEuroWord_eq_some hstrip
                    rw [hr3] at h6
                    exact (List.dropWhile_sublist _).subset
                      ((List.dropWhile_sublist _).subset ((List.drop_sublist _ _).subset h6))
            | none =>
                rw [hstrip] at h
                rcases List.mem_append.mp h with h3 | h4
                · exact Or.inr ((List.takeWhile_sublist _).subset h3)
                · rcases ih _ h4 with h5 | h6
                  · exact Or.inl h5
                  · exact Or.inr ((List.dropWhile_sublist _).subset h6)
          · rw [if_neg hd] at h
            rcases List.mem_cons.mp h with h1 | h2
            · exact Or.inr (h1 ▸ List.mem_cons_self _ _)
            · rcases ih rest h2 with h3 | h4
              · exact Or.inl h3
              · exact Or.inr (List.mem_cons_of_mem _ h4)

theorem noEuro_normalizeReply (s : String) : '€' ∉ (normalizeReply s).data := by
  intro hmem
  have h1 : '€' = '$' ∨ '€' ∈ s.data.map euroCharToDollar :=
    mem_euroSubAux (s.data.map euroCharToDollar).length (s.data.map euroCharToDollar) hmem
  rcases h1 with h | h
  · exact absurd h (by decide)
  · rcases List.mem_map.mp h with ⟨c, _, hc⟩
    unfold euroCharToDollar at hc
    split at hc
    · exact absurd hc (by decide)
    · next h2 => exact h2 hc

theorem selectedSpec_cons (lr : List Product) (i : Int) (rest : List Int) :
    selectedSpec lr (i :: rest) =
      (if 1 ≤ i ∧ i ≤ (lr.length : Int) then (lr.get? (i - 1).toNat).toList else []) ++
        selectedSpec lr rest := by
  unfold selectedSpec
  by_cases h : 1 ≤ i ∧ i ≤ (lr.length : Int)
  · rw [if_pos h, List.filter_cons, if_pos (by simpa using h), List.filterMap_cons]
    cases hg : lr.get? (i - 1).toNat <;> simp [hg]
  · rw [if_neg h, List.filter_cons, if_neg (by simpa using h)]
    rfl

theorem selectPositions_aux (lr : List Product) :
    ∀ (indices : List Int) (acc : List Product),
      indices.foldl (selStep lr) acc = acc ++ selectedSpec lr indices := by
  intro indices
  induction indices with
  | nil => intro acc; simp [selectedSpec]
  | cons i rest ih =>
      intro acc
      rw [List.foldl_cons, ih, selectedSpec_cons]
      unfold selStep
      by_cases h : 1 ≤ i ∧ i ≤ (lr.length : Int)
      · rw [if_pos h, if_pos h, List.append_assoc]
      · rw [if_neg h, if_neg h, List.nil_append]

theorem selectPositions_eq (lr : List Product) (indices : List Int) :
    selectPositions lr indices = selectedSpec lr indices := by
  have h := selectPositions_aux lr indices []
  simpa [selectPositions] using h

theorem keyLe_refl (a : Product) : keyLe a a :=
  Or.inr ⟨rfl, le_refl _⟩

theorem keyLe_trans {a b c : Product} (h1 : keyLe a b) (h2 : keyLe b c) : keyLe a c := by
  rcases h1 with h1 | ⟨e1, r1⟩ <;> rcases h2 with h2 | ⟨e2, r2⟩
  · exact Or.inl (h1.trans h2)
  · exact Or.inl (e2 ▸ h1)
  · exact Or.inl (e1 ▸ h2)
  · exact Or.inr ⟨e1.trans e2, r1.trans r2⟩

theorem keyLe_of_keyLtB {a b : Product} (h : keyLtB a b = true) : keyLe a b := by
  unfold keyLtB at h
  rcases Bool.or_eq_true_iff.mp h with h1 | h2
  · exact Or.inl (of_decide_eq_true h1)
  · rcases Bool.and_eq_true_iff.mp h2 with ⟨h3, h4⟩
    exact Or.inr ⟨of_decide_eq_true h3, le_of_lt (of_decide_eq_true h4)⟩

theorem keyLe_of_keyLtB_false {a b : Product} (h : keyLtB a b = false) : keyLe b a := by
  unfold keyLtB at h
  rcases Bool.or_eq_false_iff.mp h with ⟨h1, h2⟩
  have hns : ¬ stockRank a < stockRank b := of_decide_eq_false h1
  rcases Nat.lt_or_ge (stockRank b) (stockRank a) with hlt | hge
  · exact Or.inl hlt
  · have heq : stockRank a = stockRank b := Nat.le_antisymm hge (Nat.le_of_not_lt hns)
    rcases Bool.and_eq_false_iff.mp h2 with h3 | h4
    · exact absurd heq (of_decide_eq_false h3)
    · exact Or.inr ⟨heq.symm, le_of_not_lt (of_decide_eq_false h4)⟩

theorem minLoop_spec :
    ∀ (l : List Product) (best : Product),
      (minLoop best l = best ∨ minLoop best l ∈ l) ∧
        keyLe (minLoop best l) best ∧
        ∀ x ∈ l, keyLe (minLoop best l) x := by
  intro l
  induction l with
  | nil =>
      intro best
      refine ⟨Or.inl rfl, keyLe_refl best, ?_⟩
      intro x hx
      exact absurd hx (List.not_mem_nil x)
  | cons y rest ih =>
      intro best
      have hstep : minLoop best (y :: rest) = minLoop (if keyLtB y best then y else best) rest := rfl
      cases hk : keyLtB y best with
      | true =>
          have hy : minLoop best (y :: rest) = minLoop y rest := by rw [hstep, hk]; rfl
          obtain ⟨m1, m2, m3⟩ := ih y
          rw [hy]
          refine ⟨?_, ?_, ?_⟩
          · rcases m1 with e | hm
            · exact Or.inr (by rw [e]; exact List.mem_cons_self _ _)
            · exact Or.inr (List.mem_cons_of_mem _ hm)
          · exact keyLe_trans m2 (keyLe_of_keyLtB hk)
          · intro x hx
            rcases List.mem_cons.mp hx with rfl | hx2
            · exact m2
            · exact m3 x hx2
      | false =>
          have hy : minLoop best (y :: rest) = minLoop best rest := by rw [hstep, hk]; rfl
          obtain ⟨m1, m2, m3⟩ := ih best
          rw [hy]
          refine ⟨?_, ?_, ?_⟩
          · rcases m1 with e | hm
            · exact Or.inl e
            · exact Or.inr (List.mem_cons_of_mem _ hm)
          · exact m2
          · intro x hx
            rcases List.mem_cons.mp hx with rfl | hx2
            · exact keyLe_trans m2 (keyLe_of_keyLtB_false hk)
            · exact m3 x hx2

/-! Concrete fixtures used by witness theorems. -/

/-- A trivial abstract fuzzy scorer used for concrete evaluation. -/
def score0 : String → String → Rat := fun _ _ => 0

/-- A concrete in-stock catalog record. -/
def sampleP : Product :=
  { id := "p1", brand := "Lenovo", model := "ThinkPad X1", ram_gb := 16,
    cpu := "Intel i7", price := 999, in_stock := true }

/-- A concrete in-stock record with the lowest price-per-RAM ratio. -/
def sampleQ : Product :=
  { id := "p2", brand := "HP", model := "Envy", ram_gb := 32,
    cpu := "AMD Ryzen 7", price := 1400, in_stock := true }

/-- A concrete out-of-stock record. -/
def sampleR : Product :=
  { id := "p3", brand := "Dell", model := "XPS 13", ram_gb := 8,
    cpu := "Intel i5", price := 600, in_stock := false }

/-- A fresh session over the three sample records. -/
def st0 : AdvisorState := { products := [sampleP, sampleQ, sampleR] }

/-- A concrete filter set for the witnesses. -/
def f4 : Filters := { ram := some 8, max_price := some 1200, in_stock := some true }

/-! Claims. -/

/-- C1: filtering is cumulative across calls.  Applying `f1` and then
`f2` returns the same filtered list as one call with the merged
mapping, and afterwards Current Filters equals the old Current Filters
updated with the merged mapping (new values overwriting old ones), so a
previously set key persists unless overwritten. -/
theorem C1_cumulative_filters (score : String → String → Rat)
    (st : AdvisorState) (f1 f2 : Filters) :
    (apply_filters score (apply_filters score st f1).1 f2).2 =
      (apply_filters score st (Filters.update f1 f2)).2 ∧
    ((apply_filters score (apply_filters score st f1).1 f2).1).current_filters =
      Filters.update st.current_filters (Filters.update f1 f2) := by
  have h := Filters.update_assoc st.current_filters f1 f2
  constructor
  · show runFilters score st.available_brands st.preferences.brand
        (Filters.update (Filters.update st.current_filters f1) f2) st.products =
      runFilters score st.available_brands st.preferences.brand
        (Filters.update st.current_filters (Filters.update f1 f2)) st.products
    rw [h]
  · show Filters.update (Filters.update st.current_filters f1) f2 =
      Filters.update st.current_filters (Filters.update f1 f2)
    exact h

/-- Witness for C1: the concrete instance of the spec example, filtering
by ram 8 and then by max price 1000 over a concrete session. -/
theorem C1_cumulative_filters_witness :
    (apply_filters score0 (apply_filters score0 st0 { ram := some 8 }).1
        { max_price := some 1000 }).2 =
      (apply_filters score0 st0
        (Filters.update { ram := some 8 } { max_price := some 1000 })).2 :=
  (C1_cumulative_filters score0 st0 { ram := some 8 } { max_price := some 1000 }).1

/-- C4: filter postconditions.  Every product in the list returned by an
apply call satisfies the ram bound, the price bound and the stock
equality for every key set in the merged Current Filters. -/
theorem C4_filter_postconditions (score : String → String → Rat)
    (st : AdvisorState) (f : Filters) (p : Product)
    (hp : p ∈ (apply_filters score st f).2) :
    (∀ r, (Filters.update st.current_filters f).ram = some r → r ≤ p.ram_gb) ∧
    (∀ m, (Filters.update st.current_filters f).max_price = some m → p.price ≤ m) ∧
    (∀ s, (Filters.update st.current_filters f).in_stock = some s → p.in_stock = s) := by
  have hrun : p ∈ runFilters score st.available_brands st.preferences.brand
      (Filters.update st.current_filters f) st.products := hp
  refine ⟨?_, ?_, ?_⟩
  · intro r hr
    have h2 : p ∈ ramStage (Filters.update st.current_filters f).ram
        (prefBrandStage st.preferences.brand st.products) :=
      mem_of_priceStage (mem_of_cpuStage (mem_of_brandStage (mem_of_stockStage hrun)))
    rw [hr] at h2
    exact ramStage_prop h2
  · intro m hm
    have h3 : p ∈ priceStage (Filters.update st.current_filters f).max_price
        (ramStage (Filters.update st.current_filters f).ram
          (prefBrandStage st.preferences.brand st.products)) :=
      mem_of_cpuStage (mem_of_brandStage (mem_of_stockStage hrun))
    rw [hm] at h3
    exact priceStage_prop h3
  · intro s hs
    have h6 : p ∈ stockStage (Filters.update st.current_filters f).in_stock
        (brandStage score st.available_brands (Filters.update st.current_filters f).brand
          (cpuStage (Filters.update st.current_filters f).cpu
            (priceStage (Filters.update st.current_filters f).max_price
              (ramStage (Filters.update st.current_filters f).ram
                (prefBrandStage st.preferences.brand st.products))))) := hrun
    rw [hs] at h6
    exact stockStage_prop h6

/-- Witness for C4: a concrete product surviving concrete ram, price and
stock filters satisfies all three bounds. -/
theorem C4_filter_postconditions_witness :
    sampleP ∈ (apply_filters score0 st0 f4).2 ∧
    (8 : Int) ≤ sampleP.ram_gb ∧ sampleP.price ≤ (1200 : Rat) ∧
    sampleP.in_stock = true :=
  ⟨by decide,
   (C4_filter_postconditions score0 st0 f4 sampleP (by decide)).1 8 rfl,
   (C4_filter_postconditions score0 st0 f4 sampleP (by decide)).2.1 1200 rfl,
   (C4_filter_postconditions score0 st0 f4 sampleP (by decide)).2.2 true rfl⟩

/-- C7: RAM filter monotonicity.  With all other filters and the state
held fixed, raising the ram bound from r1 to r2 yields a sublist of the
r1 result, and in particular never increases the result count. -/
theorem C7_ram_monotone (score : String → String → Rat) (st : AdvisorState)
    (f : Filters) (r1 r2 : Int) (h : r1 ≤ r2) :
    List.Sublist (apply_filters score st { f with ram := some r2 }).2
      (apply_filters score st { f with ram := some r1 }).2 ∧
    ((apply_filters score st { f with ram := some r2 }).2).length ≤
      ((apply_filters score st { f with ram := some r1 }).2).length := by
  have hram : List.Sublist
      (ramStage (some r2) (prefBrandStage st.preferences.brand st.products))
      (ramStage (some r1) (prefBrandStage st.preferences.brand st.products)) := by
    show List.Sublist
      ((prefBrandStage st.preferences.brand st.products).filter
        (fun p => decide (r2 ≤ p.ram_gb)))
      ((prefBrandStage st.preferences.brand st.products).filter
        (fun p => decide (r1 ≤ p.ram_gb)))
    refine List.monotone_filter_right _ ?_
    intro a ha
    exact decide_eq_true (le_trans h (of_decide_eq_true ha))
  have key : List.Sublist (apply_filters score st { f with ram := some r2 }).2
      (apply_filters score st { f with ram := some r1 }).2 := by
    show List.Sublist
      (stockStage (oupd st.current_filters.in_stock f.in_stock)
        (brandStage score st.available_brands (oupd st.current_filters.brand f.brand)
          (cpuStage (oupd st.current_filters.cpu f.cpu)
            (priceStage (oupd st.current_filters.max_price f.max_price)
              (ramStage (some r2) (prefBrandStage st.preferences.brand st.products))))))
      (stockStage (oupd st.current_filters.in_stock f.in_stock)
        (brandStage score st.available_brands (oupd st.current_filters.brand f.brand)
          (cpuStage (oupd st.current_filters.cpu f.cpu)
            (priceStage (oupd st.current_filters.max_price f.max_price)
              (ramStage (some r1) (prefBrandStage st.preferences.brand st.products))))))
    exact stockStage_mono _ (brandStage_mono _ _ _ (cpuStage_mono _ (priceStage_mono _ hram)))
  exact ⟨key, key.length_le⟩

/-- Witness for C7: raising the ram bound from 8 to 16 over the sample
catalog keeps the result a sublist of the looser result. -/
theorem C7_ram_monotone_witness :
    (8 : Int) ≤ 16 ∧
    List.Sublist (apply_filters score0 st0 { ram := some 16 }).2
      (apply_filters score0 st0 { ram := some 8 }).2 :=
  ⟨by decide,
   (C7_ram_monotone score0 st0 {} 8 16 (by decide)).1⟩

/-- C9: frame property of filtering.  An apply call leaves the catalog,
the available brands, the preferences and the last results unchanged;
the only state change is Current Filters, which becomes the old value
updated with the new mapping; and every returned product is a catalog
record. -/
theorem C9_apply_filters_frame (score : String → String → Rat)
    (st : AdvisorState) (f : Filters) :
    (apply_filters score st f).1.products = st.products ∧
    (apply_filters score st f).1.available_brands = st.available_brands ∧
    (apply_filters score st f).1.preferences = st.preferences ∧
    (apply_filters score st f).1.last_results = st.last_results ∧
    (apply_filters score st f).1.current_filters = Filters.update st.current_filters f ∧
    ∀ p ∈ (apply_filters score st f).2, p ∈ st.products := by
  refine ⟨rfl, rfl, rfl, rfl, rfl, ?_⟩
  intro p hp
  have hrun : p ∈ runFilters score st.available_brands st.preferences.brand
      (Filters.update st.current_filters f) st.products := hp
  exact mem_of_prefBrandStage (mem_of_ramStage (mem_of_priceStage
    (mem_of_cpuStage (mem_of_brandStage (mem_of_stockStage hrun)))))

/-- Witness for C9: the frame equalities at a concrete session, and a
concrete returned product being a catalog record. -/
theorem C9_apply_filters_frame_witness :
    (apply_filters score0 st0 f4).1.products = st0.products ∧
    (apply_filters score0 st0 f4).1.last_results = st0.last_results ∧
    (apply_filters score0 st0 f4).1.current_filters = Filters.update st0.current_filters f4 ∧
    sampleP ∈ st0.products :=
  ⟨(C9_apply_filters_frame score0 st0 f4).1,
   (C9_apply_filters_frame score0 st0 f4).2.2.2.1,
   (C9_apply_filters_frame score0 st0 f4).2.2.2.2.1,
   (C9_apply_filters_frame score0 st0 f4).2.2.2.2.2 sampleP (by decide)⟩

/-- C2 (code bug): on a raised delegated-call error the method returns
the deterministic fallback message, but on a successful call with no
choices the final return statement reads the never-assigned local
variable `fallback`, so the method raises `NameError` instead of
returning a usable message — evaluated here at the failing input. -/
theorem C2_recommendation_fallback_bug :
    get_full_recommendation [sampleP] GenResult.noChoices =
      Except.error "NameError: fallback is not defined" ∧
    get_full_recommendation [sampleP] GenResult.err =
      Except.ok
        "❌ Не удалось получить рекомендацию. Доступные варианты:\n- Lenovo ThinkPad X1 ($999.00)" := by
  exact ⟨rfl, rfl⟩

/-- C3 counterexample: the claim says every euro-currency mention — the
euro symbol, or the word евро followed by a number — appears in the
output as a dollar-prefixed number; but the reply `евро 500` passes
through post-processing completely unchanged, and the output contains
no dollar sign at all. -/
theorem C3_currency_counterexample :
    normalizeReply "евро 500" = "евро 500" ∧
    '$' ∉ (normalizeReply "евро 500").data := by
  exact ⟨by decide, by decide⟩

/-- C3 (amended): the post-processed output never contains a euro
symbol; each euro symbol is replaced in place by a dollar sign (so a
number followed by the symbol becomes dollar-suffixed, not
dollar-prefixed), and each mention of a number followed by the word
евро is rewritten to the dollar-prefixed number; the word евро followed
by a number is left unchanged. -/
theorem C3_currency_normalization :
    (∀ s : String, '€' ∉ (normalizeReply s).data) ∧
    normalizeReply "Цена: 1000 евро" = "Цена: $1000" ∧
    normalizeReply "Цена: 1000€" = "Цена: 1000$" := by
  refine ⟨noEuro_normalizeReply, by decide, by decide⟩

/-- Witness for C3: the no-euro-symbol property evaluated at a concrete
reply. -/
theorem C3_currency_normalization_witness :
    '€' ∉ (normalizeReply "скидка 50€ сегодня").data :=
  C3_currency_normalization.1 "скидка 50€ сегодня"

/-- C5: comparison position handling.  The selection built by the loop
is exactly the items at the in-range 1-based positions, in the order
given (out-of-range positions silently excluded); and when every
supplied position is out of range over a non-empty Last Results list,
the method returns the explicit error naming the valid range 1 to N. -/
theorem C5_compare_positions (lr : List Product) (indices : List Int)
    (resp : GenResult) (hne : lr ≠ [])
    (hall : ∀ i ∈ indices, ¬(1 ≤ i ∧ i ≤ (lr.length : Int))) :
    selectPositions lr indices = selectedSpec lr indices ∧
    compare_products lr indices resp = invalidPositionsMsg lr.length := by
  refine ⟨selectPositions_eq lr indices, ?_⟩
  have hfilter : indices.filter
      (fun idx => decide (1 ≤ idx ∧ idx ≤ (lr.length : Int))) = [] :=
    List.filter_eq_nil_iff.mpr (fun a ha => by simpa using hall a ha)
  have hsel : selectPositions lr indices = [] := by
    rw [selectPositions_eq]
    unfold selectedSpec
    rw [hfilter]
    rfl
  have hemp : lr.isEmpty = false := by
    cases lr with
    | nil => exact absurd rfl hne
    | cons a l => rfl
  unfold compare_products
  rw [hemp]
  simp only [Bool.false_eq_true, if_false, hsel, List.isEmpty_nil, if_pos]

/-- Witness for C5: comparing position 99 against a one-element Last
Results list returns the error naming the range 1 to 1. -/
theorem C5_compare_positions_witness :
    ([sampleP] ≠ ([] : List Product)) ∧
    (∀ i ∈ [(99 : Int)], ¬(1 ≤ i ∧ i ≤ (([sampleP] : List Product).length : Int))) ∧
    compare_products [sampleP] [99] GenResult.err = invalidPositionsMsg 1 :=
  ⟨by decide, by decide,
   (C5_compare_positions [sampleP] [99] GenResult.err (by decide) (by decide)).2⟩

/-- C6: extraction failure handling.  When the delegated NLU call raises
or returns no choices, extraction returns exactly the local regex
filters: `in_stock` is true precisely when the lowercased input
contains the phrase в наличии, `ram` is exactly the number found by the
RAM pattern search, and no other key is ever set locally. -/
theorem C6_extraction_fallback (score : String → String → Rat)
    (brands : List String) (input : String) :
    extract_filters score brands input NLUResult.err = localExtract input ∧
    extract_filters score brands input NLUResult.noChoices = localExtract input ∧
    (localExtract input).in_stock =
      (if containsSeq "в наличии".data (pyLower input).data then some true else none) ∧
    (localExtract input).ram = ramSearch (pyLower input).data ∧
    (localExtract input).max_price = none ∧
    (localExtract input).cpu = none ∧
    (localExtract input).brand = none := by
  refine ⟨rfl, rfl, ?_, ?_, ?_, ?_, ?_⟩ <;>
    · unfold localExtract
      cases hr : ramSearch (pyLower input).data <;>
        by_cases hc : containsSeq "в наличии".data (pyLower input).data <;>
          simp [hr, hc]

/-- Witness for C6: the failure path evaluated at a concrete query. -/
theorem C6_extraction_fallback_witness :
    extract_filters score0 ["Lenovo"] "ноутбук 16GB в наличии" NLUResult.err =
      localExtract "ноутбук 16GB в наличии" :=
  (C6_extraction_fallback score0 ["Lenovo"] "ноутбук 16GB в наличии").1

/-- C8: fallback best pick.  The locally computed recommended item is a
member of the selection, minimal under the lexicographic key
(stock rank, price per gigabyte of RAM) against every selected item,
and in particular in stock whenever any selected item is in stock. -/
theorem C8_best_pick (sel : List Product) (b : Product)
    (hb : bestPick sel = some b) :
    b ∈ sel ∧ (∀ x ∈ sel, keyLe b x) ∧
    (∀ x ∈ sel, x.in_stock = true → b.in_stock = true) := by
  match sel, hb with
  | p :: rest, hb =>
      have hb2 : minLoop p rest = b := Option.some.inj hb
      obtain ⟨m1, m2, m3⟩ := minLoop_spec rest p
      subst hb2
      have hall : ∀ x ∈ p :: rest, keyLe (minLoop p rest) x := by
        intro x hx
        rcases List.mem_cons.mp hx with rfl | hx2
        · exact m2
        · exact m3 x hx2
      refine ⟨?_, hall, ?_⟩
      · rcases m1 with e | hm
        · exact (by rw [e]; exact List.mem_cons_self _ _)
        · exact List.mem_cons_of_mem _ hm
      · intro x hx hsx
        have hle := hall x hx
        have hx0 : stockRank x = 0 := by unfold stockRank; rw [hsx]; rfl
        rcases hle with hlt | ⟨heq, _⟩
        · rw [hx0] at hlt
          exact absurd hlt (Nat.not_lt_zero _)
        · have h0 : stockRank (minLoop p rest) = 0 := heq.trans hx0
          unfold stockRank at h0
          by_cases hbs : (minLoop p rest).in_stock
          · exact hbs
          · rw [if_neg hbs] at h0
            exact absurd h0 (by decide)

/-- Witness for C8: over a concrete two-element selection holding one
out-of-stock and one in-stock item, the pick is the in-stock item. -/
theorem C8_best_pick_witness :
    bestPick [sampleR, sampleP] = some sampleP ∧
    sampleP ∈ [sampleR, sampleP] ∧
    keyLe sampleP sampleR ∧
    sampleP.in_stock = true :=
  ⟨by decide,
   (C8_best_pick [sampleR, sampleP] sampleP (by decide)).1,
   (C8_best_pick [sampleR, sampleP] sampleP (by decide)).2.1 sampleR
     (by decide),
   (C8_best_pick [sampleR, sampleP] sampleP (by decide)).2.2 sampleP
     (by decide) rfl⟩

/-- C10: comparison with empty Last Results.  For every position list
and every delegated-call outcome the method returns the distinct
no-results message, which names no numeric range (it contains no digit
at all), so the range-naming error can only arise for non-empty Last
Results. -/
theorem C10_compare_empty_last_results (indices : List Int) (resp : GenResult) :
    compare_products [] indices resp = noResultsMsg ∧
    ∀ c ∈ noResultsMsg.data, c.isDigit = false := by
  exact ⟨rfl, by decide⟩

/-- Witness for C10: the empty-results message at a concrete call. -/
theorem C10_compare_empty_last_results_witness :
    compare_products [] [5] GenResult.err = noResultsMsg :=
  (C10_compare_empty_last_results [5] GenResult.err).1

end Advisor
